import Mathlib

/-!
Verification of the batch orchestration and categorization pipeline of the
repository (the re-implementation workflow driven by `reimplementAndZip` in
`src/index.tsx`, with variants in `src/reimplementation.worker.ts`).

The pipeline is embedded shallowly: JavaScript strings become Lean `String`s,
the character-level substring test of `String.prototype.includes` is spelled
out on `List Char`, the imperative batching loops become folds over an
explicit accumulator state, and the sequential batch runner becomes a
recursive function threading an accumulator and emitting a list of structured
events (progress updates, generation-call start/end markers, the retry
backoff, and the terminal completion or error).  The external generation
service is abstracted as a client function from call number and batch to an
optional parsed result, where `none` stands for any of the three failure
modes the code treats alike (a thrown error, unparseable response text, or a
response lacking the required `files` key).  The JSZip archive is abstracted
as an ordered list of members, with `zip.file(path, content)` replacing an
existing member at the same path or appending a new one.
-/

namespace RepRip

/-- Characters of a string, lowercased; models `s.toLowerCase()` on the
character sequence of a JavaScript string. -/
def lowerChars (s : String) : List Char := s.toList.map Char.toLower

/-- Whether the second character list is an initial segment of the first. -/
def listStartsWith : List Char → List Char → Bool
  | _, [] => true
  | [], _ :: _ => false
  | a :: s, b :: t => a == b && listStartsWith s t

/-- Whether the second character list occurs contiguously inside the first;
models `String.prototype.includes`. -/
def containsSeq : List Char → List Char → Bool
  | [], sub => sub.isEmpty
  | a :: s, sub => listStartsWith (a :: s) sub || containsSeq s sub

/-- One input file: a path and its fetched content
(`{ path: string, content: string }` in the source). -/
structure SourceFile where
  path : String
  content : String
deriving DecidableEq, Repr

/-- A declared project part: a name and its ordered keyword list
(one entry of `projectStructure` / `projectParts` in the source). -/
structure Category where
  name : String
  keywords : List String
deriving DecidableEq, Repr

/-- Whether a category claims a path: some keyword occurs in the lowercased
path, as in `keywords.some(kw => file.path.toLowerCase().includes(kw))`. -/
def matchesCategory (c : Category) (path : String) : Bool :=
  c.keywords.any (fun kw => containsSeq (lowerChars path) kw.toList)

/-- The part name a file is assigned to:
`Object.keys(projectStructure).find(name => ...) || catchAll` from
`src/reimplementation.worker.ts`.  The `|| catchAll` fallback also fires on
an empty found name, since the empty string is falsy in JavaScript. -/
def assignPartWith (catchAll : String) (cats : List Category) (path : String) : String :=
  match cats.find? (fun c => matchesCategory c path) with
  | some c => if c.name = "" then catchAll else c.name
  | none => catchAll

/-- Append a file to every bucket carrying the given part name; models
`projectStructure[assignedPart].files.push(file)`. -/
def pushFile (buckets : List (String × List SourceFile)) (name : String) (f : SourceFile) :
    List (String × List SourceFile) :=
  buckets.map (fun b => if b.1 = name then (b.1, b.2 ++ [f]) else b)

/-- The categorizer: initialize one empty bucket per declared category, then
push each file into the bucket of its assigned part, in input order. -/
def categorize (cats : List Category) (catchAll : String) (files : List SourceFile) :
    List (String × List SourceFile) :=
  files.foldl (fun bs f => pushFile bs (assignPartWith catchAll cats f.path) f)
    (cats.map (fun c => (c.name, ([] : List SourceFile))))

/-- The project structure declared in `src/reimplementation.worker.ts`. -/
def workerStructure : List Category :=
  [⟨"Configuration", ["config", "vite", "package.json", "tsconfig", ".env", "setup", "html"]⟩,
   ⟨"Styling", [".css", ".scss", ".less", "tailwind", "styles"]⟩,
   ⟨"CoreLogic", ["api", "service", "util", "lib", "core", "helper", "logic", "server",
                  "controller", "model", "worker", ".ts", ".js"]⟩,
   ⟨"UI", ["component", "view", "page", "ui", "layout", "header", "footer", ".tsx", ".jsx"]⟩,
   ⟨"Miscellaneous", []⟩]

/-- One produced batch: its files together with the character count the
batching loop accumulated for it. -/
structure Batch where
  files : List SourceFile
  charCount : Nat
deriving DecidableEq, Repr

/-- The live state of the batching loop: closed batches, the current batch
under construction, and its running character count. -/
structure BatchState where
  batches : List Batch
  cur : List SourceFile
  cnt : Nat
deriving DecidableEq, Repr

/-- One iteration of the batching loop of `src/reimplementation.worker.ts`:
on overflow close the current batch and reset the accumulator to empty and
zero, then append the file unconditionally. -/
def batchStepA (maxChars : Nat) (st : BatchState) (f : SourceFile) : BatchState :=
  let st' := if st.cur ≠ [] ∧ st.cnt + f.content.length > maxChars then
      { batches := st.batches ++ [⟨st.cur, st.cnt⟩], cur := [], cnt := 0 }
    else st
  { st' with cur := st'.cur ++ [f], cnt := st'.cnt + f.content.length }

/-- One iteration of the batching loop of `src/index.tsx`: on overflow close
the current batch and seed the new batch directly with the file and its
length; otherwise append. -/
def batchStepB (maxChars : Nat) (st : BatchState) (f : SourceFile) : BatchState :=
  if st.cur ≠ [] ∧ st.cnt + f.content.length > maxChars then
    { batches := st.batches ++ [⟨st.cur, st.cnt⟩], cur := [f], cnt := f.content.length }
  else
    { st with cur := st.cur ++ [f], cnt := st.cnt + f.content.length }

/-- After the loop, close any remaining non-empty batch
(`if (currentBatch.length > 0) batches.push(currentBatch)`). -/
def finalizeBatches (st : BatchState) : List Batch :=
  if st.cur ≠ [] then st.batches ++ [⟨st.cur, st.cnt⟩] else st.batches

/-- The batcher as written in `src/reimplementation.worker.ts` (variant A). -/
def makeBatchesA (files : List SourceFile) (maxChars : Nat) : List Batch :=
  finalizeBatches (files.foldl (batchStepA maxChars) ⟨[], [], 0⟩)

/-- The batcher as written in `src/index.tsx` (variant B). -/
def makeBatchesB (files : List SourceFile) (maxChars : Nat) : List Batch :=
  finalizeBatches (files.foldl (batchStepB maxChars) ⟨[], [], 0⟩)

/-- Total content length of a list of files. -/
def batchChars (l : List SourceFile) : Nat := (l.map (fun f => f.content.length)).sum

/-- The accumulated generated file set: an ordered path-to-content mapping. -/
abbrev FileMap := List (String × String)

/-- The external generation service, abstracted: given the call number and
the batch's files, either a parsed `files` mapping or `none` for any failure
(thrown error, unparseable response, or missing `files` key). -/
abbrev GenClient := Nat → List SourceFile → Option FileMap

/-- Observable events of one pipeline run: progress updates, per-category
success, generation-call start and end markers, the retry backoff delay, and
the terminal completion or error. -/
inductive Event where
  | progress (partName : String) (batchIndex batchCount fileCount : Nat)
  | partDone (partName : String) (fileCount : Nat)
  | callStart (n : Nat)
  | callEnd (n : Nat)
  | backoff (ms : Nat)
  | complete (archive : FileMap)
  | error (message : String)
deriving DecidableEq, Repr

/-- The retry bound hardcoded as `for (let attempt = 1; attempt <= 2; ...)`
in `src/index.tsx`. -/
def maxAttempts : Nat := 2

/-- The fixed backoff `setTimeout(resolve, 2000)` between attempts. -/
def backoffMs : Nat := 2000

/-- Outcome of the per-batch attempt loop: the parsed result if some attempt
succeeded, the next unused call number, and the trace of call and backoff
events the loop produced. -/
structure GenAttempt where
  result : Option FileMap
  nextCall : Nat
  trace : List Event
deriving DecidableEq, Repr

/-- The attempt loop of `src/index.tsx`: try the generation call; on success
stop; on failure rethrow if this was the last attempt, otherwise sleep the
fixed backoff and try again. -/
def tryGenerate (client : GenClient) (b : List SourceFile) : Nat → Nat → GenAttempt
  | callNo, 0 => ⟨none, callNo, []⟩
  | callNo, n + 1 =>
    match client callNo b with
    | some m => ⟨some m, callNo + 1, [.callStart callNo, .callEnd callNo]⟩
    | none =>
      if n = 0 then ⟨none, callNo + 1, [.callStart callNo, .callEnd callNo]⟩
      else
        let rest := tryGenerate client b (callNo + 1) n
        ⟨rest.result, rest.nextCall,
          .callStart callNo :: .callEnd callNo :: .backoff backoffMs :: rest.trace⟩

/-- One key-value step of `Object.assign`: overwrite an existing key in
place, else append the new key at the end. -/
def assignOne (acc : FileMap) (kv : String × String) : FileMap :=
  if acc.any (fun e => e.1 == kv.1) then
    acc.map (fun e => if e.1 == kv.1 then (e.1, kv.2) else e)
  else acc ++ [kv]

/-- `Object.assign(allGeneratedFiles, result.files)`. -/
def objectAssign (acc m : FileMap) : FileMap := m.foldl assignOne acc

/-- Run-wide accumulator: the merged generated files, the number of
generation calls issued so far, and the events emitted so far. -/
structure RunAcc where
  generated : FileMap
  callNo : Nat
  events : List Event
deriving DecidableEq, Repr

/-- The inner batch loop of the runner: for each batch of the current part,
emit a progress event, run the attempt loop, merge a successful result, and
abort the whole run with the part's failure message when the attempts are
exhausted. -/
def runPartBatches (client : GenClient) (partName : String) (fileCount batchCount : Nat) :
    Nat → List (List SourceFile) → RunAcc → Except (RunAcc × String) RunAcc
  | _, [], acc => .ok acc
  | i, b :: rest, acc =>
    let acc1 : RunAcc :=
      { acc with events := acc.events ++ [.progress partName (i + 1) batchCount fileCount] }
    let g := tryGenerate client b acc1.callNo maxAttempts
    let acc2 : RunAcc := { acc1 with callNo := g.nextCall, events := acc1.events ++ g.trace }
    match g.result with
    | some m =>
        runPartBatches client partName fileCount batchCount (i + 1) rest
          { acc2 with generated := objectAssign acc2.generated m }
    | none => .error (acc2, "Failed to generate batch for " ++ partName ++ ".")

/-- The outer category loop of the runner: skip empty parts, batch the
part's files, run its batches, emit the part-done event, and propagate a
batch failure as the run's failure. -/
def runParts (client : GenClient) (maxBatchChars : Nat) :
    List (String × List SourceFile) → RunAcc → Except (RunAcc × String) RunAcc
  | [], acc => .ok acc
  | part :: rest, acc =>
    if part.2.isEmpty then runParts client maxBatchChars rest acc
    else
      let bs := (makeBatchesB part.2 maxBatchChars).map Batch.files
      match runPartBatches client part.1 part.2.length bs.length 0 bs acc with
      | .ok acc' =>
          runParts client maxBatchChars rest
            { acc' with events := acc'.events ++ [.partDone part.1 part.2.length] }
      | .error e => .error e

/-- `zip.file(path, content)` on the archive member list: replace an
existing member at the same path, else append a new member. -/
def zipFile (z : FileMap) (p c : String) : FileMap :=
  if z.any (fun e => e.1 == p) then z.map (fun e => if e.1 == p then (p, c) else e)
  else z ++ [(p, c)]

/-- The archive builder: add every entry of the generated file set as one
member, in entry order. -/
def buildArchive (files : FileMap) : FileMap :=
  files.foldl (fun z e => zipFile z e.1 e.2) []

/-- Result of one whole run: the emitted events and the archive, present
exactly when the run completed. -/
structure RunResult where
  events : List Event
  archive : Option FileMap
deriving DecidableEq, Repr

/-- The whole pipeline: categorize, run all parts sequentially, then either
build the archive and emit completion, or emit the single error event and
discard the partially accumulated file set. -/
def runPipeline (client : GenClient) (cats : List Category) (catchAll : String)
    (maxBatchChars : Nat) (files : List SourceFile) : RunResult :=
  match runParts client maxBatchChars (categorize cats catchAll files) ⟨[], 0, []⟩ with
  | .ok acc =>
      let archive := buildArchive acc.generated
      { events := acc.events ++ [.complete archive], archive := some archive }
  | .error e => { events := e.1.events ++ [.error e.2], archive := none }

/-- Case-insensitive substring test, as the specification words it: the
keyword, lowercased, occurs in the lowercased path. -/
def ciSubstr (kw path : String) : Bool := containsSeq (lowerChars path) (lowerChars kw)

/-- Category assignment as the specification words it: the first declared
category one of whose keywords is a case-insensitive substring of the path,
else the catch-all. -/
def assignSpec (catchAll : String) (cats : List Category) (path : String) : String :=
  match cats.find? (fun c => c.keywords.any (fun kw => ciSubstr kw path)) with
  | some c => c.name
  | none => catchAll

/-- Whether an event is a generation-call start or end marker. -/
def isCallEv : Event → Bool
  | .callStart _ => true
  | .callEnd _ => true
  | _ => false

/-- Whether an event is a generation-call start marker. -/
def isCallStartEv : Event → Bool
  | .callStart _ => true
  | _ => false

/-- Whether an event is the terminal error event. -/
def isErrorEv : Event → Bool
  | .error _ => true
  | _ => false

/-- Whether an event is the terminal completion event. -/
def isCompleteEv : Event → Bool
  | .complete _ => true
  | _ => false

/-- The payload of a progress event, if the event is one. -/
def progressOf : Event → Option (String × Nat × Nat × Nat)
  | .progress n i c f => some (n, i, c, f)
  | _ => none

/-- Whether an event is neither the terminal error nor the terminal
completion event. -/
def benign (e : Event) : Bool := !(isErrorEv e || isCompleteEv e)

/-- The call trace of k consecutive completed calls starting at call c. -/
def callBlock (c k : Nat) : List Event :=
  (List.range k).map (fun i => ([.callStart (c + i), .callEnd (c + i)] : List Event)) |>.flatten

/-- Whether a call trace is strictly sequential from call number n: calls
start in order and each call ends before the next one starts. -/
def seqFrom : Nat → List Event → Bool
  | _, [] => true
  | n, .callStart k :: .callEnd k' :: rest => k == n && k' == n && seqFrom (n + 1) rest
  | _, _ => false

/-- The full progress schedule the runner would emit for the given buckets:
for each non-empty part in declaration order, its batches in order. -/
def canonicalSchedule (maxBatchChars : Nat) (parts : List (String × List SourceFile)) :
    List (String × Nat × Nat × Nat) :=
  parts.map (fun part =>
    if part.2.isEmpty then []
    else
      let k := ((makeBatchesB part.2 maxBatchChars).map Batch.files).length
      (List.range k).map (fun j => (part.1, j + 1, k, part.2.length))) |>.flatten

/-- The run accumulator reached by the runner, whether it succeeded or
aborted. -/
def outAcc : Except (RunAcc × String) RunAcc → RunAcc
  | .ok a => a
  | .error e => e.1

/-- A generation client stub that fails on every call. -/
def alwaysFail : GenClient := fun _ _ => none

/-- A generation client stub that fails on the first call of the run and
succeeds with the given mapping on every later call. -/
def failThenSucceed (m : FileMap) : GenClient := fun n _ => if n = 0 then none else some m

/-- The batch invariant: the recorded character count is the sum of the
batch's content lengths, and it respects the budget unless the batch is a
single oversized file. -/
def GoodBatch (maxChars : Nat) (b : Batch) : Prop :=
  b.charCount = batchChars b.files ∧
  (b.charCount ≤ maxChars ∨ ∃ f, b.files = [f] ∧ maxChars < f.content.length)

/-- The batching-loop invariant: all closed batches are good, the running
count matches the current batch, and the current batch is itself good. -/
def AccOk (maxChars : Nat) (st : BatchState) : Prop :=
  (∀ b ∈ st.batches, GoodBatch maxChars b) ∧
  st.cnt = batchChars st.cur ∧
  (st.cnt ≤ maxChars ∨ ∃ f, st.cur = [f] ∧ maxChars < f.content.length)

/-- All files held by a batching state, closed batches first, in order. -/
def flatAcc (st : BatchState) : List SourceFile :=
  (st.batches.map Batch.files).flatten ++ st.cur


theorem batchStep_eq (maxChars : Nat) (st : BatchState) (f : SourceFile) :
    batchStepA maxChars st f = batchStepB maxChars st f := by
  simp only [batchStepA, batchStepB]
  by_cases h : st.cur ≠ [] ∧ st.cnt + f.content.length > maxChars
  · rw [if_pos h, if_pos h]
    simp
  · rw [if_neg h, if_neg h]

theorem foldl_batchStep_eq (m : Nat) :
    ∀ (fs : List SourceFile) (st : BatchState),
      fs.foldl (batchStepA m) st = fs.foldl (batchStepB m) st := by
  intro fs
  induction fs with
  | nil => intro st; rfl
  | cons f fs ih =>
    intro st
    simp only [List.foldl_cons]
    rw [batchStep_eq]
    exact ih _

/-- C10: the two batching loop variants — close-reset-append from the
worker and close-and-seed from `src/index.tsx` — produce identical batch
lists, with identical per-batch character counts, on every input sequence
and every budget. -/
theorem claim10_variants_equal (files : List SourceFile) (maxChars : Nat) :
    makeBatchesA files maxChars = makeBatchesB files maxChars := by
  unfold makeBatchesA makeBatchesB
  rw [foldl_batchStep_eq]

theorem flatAcc_step (m : Nat) (st : BatchState) (f : SourceFile) :
    flatAcc (batchStepA m st f) = flatAcc st ++ [f] := by
  simp only [batchStepA]
  by_cases h : st.cur ≠ [] ∧ st.cnt + f.content.length > m
  · rw [if_pos h]
    simp [flatAcc, List.append_assoc]
  · rw [if_neg h]
    simp [flatAcc, List.append_assoc]

theorem flatAcc_foldl (m : Nat) :
    ∀ (fs : List SourceFile) (st : BatchState),
      flatAcc (fs.foldl (batchStepA m) st) = flatAcc st ++ fs := by
  intro fs
  induction fs with
  | nil => intro st; simp
  | cons f fs ih =>
    intro st
    simp only [List.foldl_cons]
    rw [ih, flatAcc_step, List.append_assoc, List.singleton_append]

theorem finalize_flatten (st : BatchState) :
    ((finalizeBatches st).map Batch.files).flatten = flatAcc st := by
  unfold finalizeBatches flatAcc
  by_cases h : st.cur ≠ []
  · rw [if_pos h]
    simp
  · rw [if_neg h]
    push_neg at h
    simp [h]

/-- C5: concatenating the file lists of the produced batches, in batch
order, recovers exactly the input file sequence — no file lost, none
duplicated, relative order preserved. -/
theorem claim5_batches_flatten (files : List SourceFile) (maxChars : Nat) :
    ((makeBatchesA files maxChars).map Batch.files).flatten = files := by
  unfold makeBatchesA
  rw [finalize_flatten, flatAcc_foldl]
  rfl

theorem accOk_step (m : Nat) (st : BatchState) (f : SourceFile) (h : AccOk m st) :
    AccOk m (batchStepA m st f) := by
  obtain ⟨hclosed, hcnt, hcur⟩ := h
  simp only [batchStepA]
  by_cases hov : st.cur ≠ [] ∧ st.cnt + f.content.length > m
  · rw [if_pos hov]
    simp only [List.nil_append, Nat.zero_add]
    refine ⟨?_, by simp [batchChars], ?_⟩
    · intro b hb
      rcases List.mem_append.mp hb with hb | hb
      · exact hclosed b hb
      · rcases List.mem_singleton.mp hb with rfl
        exact ⟨hcnt, hcur⟩
    · by_cases hf : f.content.length ≤ m
      · exact Or.inl hf
      · exact Or.inr ⟨f, rfl, by omega⟩
  · rw [if_neg hov]
    refine ⟨hclosed, by simp [batchChars, hcnt], ?_⟩
    dsimp only
    rcases Classical.em (st.cur = []) with hnil | hnil
    · have h0 : st.cnt = 0 := by rw [hcnt, hnil]; rfl
      by_cases hf : f.content.length ≤ m
      · exact Or.inl (by omega)
      · exact Or.inr ⟨f, by rw [hnil]; rfl, by omega⟩
    · push_neg at hov
      exact Or.inl (by have := hov hnil; omega)

theorem accOk_foldl (m : Nat) :
    ∀ (fs : List SourceFile) (st : BatchState),
      AccOk m st → AccOk m (fs.foldl (batchStepA m) st) := by
  intro fs
  induction fs with
  | nil => intro st h; exact h
  | cons f fs ih =>
    intro st h
    simp only [List.foldl_cons]
    exact ih _ (accOk_step m st f h)

theorem finalize_good (m : Nat) (st : BatchState) (h : AccOk m st) :
    ∀ b ∈ finalizeBatches st, GoodBatch m b := by
  obtain ⟨hclosed, hcnt, hcur⟩ := h
  intro b hb
  unfold finalizeBatches at hb
  by_cases hnil : st.cur ≠ []
  · rw [if_pos hnil] at hb
    rcases List.mem_append.mp hb with hb | hb
    · exact hclosed b hb
    · rcases List.mem_singleton.mp hb with rfl
      exact ⟨hcnt, hcur⟩
  · rw [if_neg hnil] at hb
    exact hclosed b hb

theorem mem_le_batchChars (f : SourceFile) (l : List SourceFile) (h : f ∈ l) :
    f.content.length ≤ batchChars l := by
  unfold batchChars
  exact List.single_le_sum (fun x _ => Nat.zero_le x) _ (List.mem_map_of_mem _ h)

/-- C3: every produced batch records a character count equal to the sum of
its files' content lengths; the count respects the budget unless the batch
is a single file whose own length exceeds it; and a file whose length
exceeds the budget always ends up alone in its batch, never split. -/
theorem claim3_batch_invariants (files : List SourceFile) (maxChars : Nat) (b : Batch)
    (hb : b ∈ makeBatchesA files maxChars) :
    b.charCount = batchChars b.files ∧
    (b.charCount ≤ maxChars ∨ ∃ f, b.files = [f] ∧ maxChars < f.content.length) ∧
    (∀ f ∈ b.files, maxChars < f.content.length → b.files = [f]) := by
  have hinit : AccOk maxChars ⟨[], [], 0⟩ :=
    ⟨by simp, rfl, Or.inl (Nat.zero_le _)⟩
  have hgood : GoodBatch maxChars b :=
    finalize_good maxChars _ (accOk_foldl maxChars files _ hinit) b hb
  obtain ⟨hsum, hbud⟩ := hgood
  refine ⟨hsum, hbud, ?_⟩
  intro f hf hover
  rcases hbud with hle | ⟨g, hg, _⟩
  · have := mem_le_batchChars f b.files hf
    omega
  · rw [hg] at hf
    rcases List.mem_singleton.mp hf with rfl
    exact hg

theorem claim3_batch_invariants_witness :
    (⟨[⟨"big.ts", "0123456789"⟩], 10⟩ : Batch) ∈ makeBatchesA [⟨"big.ts", "0123456789"⟩] 5 ∧
    ((⟨[⟨"big.ts", "0123456789"⟩], 10⟩ : Batch).charCount ≤ 5 ∨
      ∃ f, (⟨[⟨"big.ts", "0123456789"⟩], 10⟩ : Batch).files = [f] ∧ 5 < f.content.length) := by
  have hb : (⟨[⟨"big.ts", "0123456789"⟩], 10⟩ : Batch) ∈ makeBatchesA [⟨"big.ts", "0123456789"⟩] 5 := by
    decide
  exact ⟨hb, (claim3_batch_invariants [⟨"big.ts", "0123456789"⟩] 5 _ hb).2.1⟩

theorem zipFile_of_not_mem (z : FileMap) (p c : String) (h : p ∉ z.map Prod.fst) :
    zipFile z p c = z ++ [(p, c)] := by
  unfold zipFile
  have hany : z.any (fun e => e.1 == p) = false := by
    by_contra hcon
    rw [Bool.not_eq_false, List.any_eq_true] at hcon
    obtain ⟨e, he, hep⟩ := hcon
    rw [beq_iff_eq] at hep
    exact h (hep ▸ List.mem_map_of_mem Prod.fst he)
  simp [hany]

theorem buildArchive_go :
    ∀ (fs z : FileMap), (fs.map Prod.fst).Nodup →
      (∀ p ∈ fs.map Prod.fst, p ∉ z.map Prod.fst) →
      fs.foldl (fun z e => zipFile z e.1 e.2) z = z ++ fs := by
  intro fs
  induction fs with
  | nil => intro z _ _; simp
  | cons e fs ih =>
    intro z hnd hdisj
    rw [List.map_cons, List.nodup_cons] at hnd
    obtain ⟨he, hnd'⟩ := hnd
    simp only [List.foldl_cons]
    rw [zipFile_of_not_mem z e.1 e.2 (hdisj e.1 (by simp))]
    have hz' : ∀ p ∈ fs.map Prod.fst, p ∉ (z ++ [(e.1, e.2)]).map Prod.fst := by
      intro p hp
      rw [List.map_append, List.mem_append]
      rintro (hza | hzb)
      · exact hdisj p (by simp [hp]) hza
      · simp only [List.map_cons, List.map_nil, List.mem_singleton] at hzb
        exact he (hzb ▸ hp)
    rw [ih (z ++ [(e.1, e.2)]) hnd' hz']
    simp

/-- C9: the archive builder adds every entry of the generated file set as
exactly one member at its verbatim path with unchanged content — the member
list of the built archive is exactly the entry list of the set. -/
theorem claim9_archive_faithful (fs : FileMap) (h : (fs.map Prod.fst).Nodup) :
    buildArchive fs = fs := by
  unfold buildArchive
  simpa using buildArchive_go fs [] h (by simp)

theorem claim9_archive_faithful_witness :
    ((([("x/y.ts", "content")] : FileMap).map Prod.fst).Nodup) ∧
    buildArchive [("x/y.ts", "content")] = [("x/y.ts", "content")] :=
  ⟨by decide, claim9_archive_faithful [("x/y.ts", "content")] (by decide)⟩

/-- C7: on the three concrete files a.css, b.ts, c.css of length 10 each,
with budget 15 and categories Styling([".css"]) then the catch-all Misc,
categorization yields Styling = [a.css, c.css] and Misc = [b.ts], and
batching splits Styling into [[a.css], [c.css]] and Misc into [[b.ts]]. -/
theorem claim7_concrete_scenario :
    categorize [⟨"Styling", [".css"]⟩, ⟨"Misc", []⟩] "Misc"
        [⟨"a.css", "xxxxxxxxxx"⟩, ⟨"b.ts", "yyyyyyyyyy"⟩, ⟨"c.css", "zzzzzzzzzz"⟩] =
      [("Styling", [⟨"a.css", "xxxxxxxxxx"⟩, ⟨"c.css", "zzzzzzzzzz"⟩]),
       ("Misc", [⟨"b.ts", "yyyyyyyyyy"⟩])] ∧
    makeBatchesA [⟨"a.css", "xxxxxxxxxx"⟩, ⟨"c.css", "zzzzzzzzzz"⟩] 15 =
      [⟨[⟨"a.css", "xxxxxxxxxx"⟩], 10⟩, ⟨[⟨"c.css", "zzzzzzzzzz"⟩], 10⟩] ∧
    makeBatchesA [⟨"b.ts", "yyyyyyyyyy"⟩] 15 = [⟨[⟨"b.ts", "yyyyyyyyyy"⟩], 10⟩] :=
  ⟨by decide, by decide, by decide⟩

theorem any_congr {α : Type} (l : List α) (p q : α → Bool) (h : ∀ a ∈ l, p a = q a) :
    l.any p = l.any q := by
  induction l with
  | nil => rfl
  | cons a l ih =>
    simp only [List.any_cons]
    rw [h a (by simp), ih (fun b hb => h b (by simp [hb]))]

theorem findq_congr {α : Type} (l : List α) (p q : α → Bool) (h : ∀ a ∈ l, p a = q a) :
    l.find? p = l.find? q := by
  induction l with
  | nil => rfl
  | cons a l ih =>
    rw [List.find?_cons, List.find?_cons, h a (by simp),
      ih (fun b hb => h b (by simp [hb]))]

theorem matches_eq_ci (c : Category) (path : String)
    (hlow : ∀ kw ∈ c.keywords, lowerChars kw = kw.toList) :
    matchesCategory c path = c.keywords.any (fun kw => ciSubstr kw path) := by
  unfold matchesCategory ciSubstr
  exact any_congr _ _ _ (fun kw hkw => by rw [hlow kw hkw])

theorem foldl_pushFile (assign : SourceFile → String) :
    ∀ (files : List SourceFile) (bs : List (String × List SourceFile)),
      files.foldl (fun bs f => pushFile bs (assign f) f) bs =
        bs.map (fun b => (b.1, b.2 ++ files.filter (fun g => assign g == b.1))) := by
  intro files
  induction files with
  | nil =>
    intro bs
    simp
  | cons f fs ih =>
    intro bs
    simp only [List.foldl_cons]
    rw [ih]
    unfold pushFile
    rw [List.map_map]
    apply List.map_congr_left
    intro b _
    by_cases hb : b.1 = assign f
    · have hbeq : (assign f == b.1) = true := by rw [beq_iff_eq, hb]
      simp only [Function.comp_apply]
      rw [if_pos hb]
      simp [List.filter_cons, hbeq, List.append_assoc]
    · have hbeq : (assign f == b.1) = false := by
        rw [beq_eq_false_iff_ne]
        exact fun hc => hb hc.symm
      simp only [Function.comp_apply]
      rw [if_neg hb]
      simp [List.filter_cons, hbeq]

theorem categorize_eq_filter (cats : List Category) (catchAll : String)
    (files : List SourceFile) :
    categorize cats catchAll files =
      cats.map (fun c =>
        (c.name, files.filter (fun g => assignPartWith catchAll cats g.path == c.name))) := by
  unfold categorize
  rw [foldl_pushFile (fun f => assignPartWith catchAll cats f.path) files]
  rw [List.map_map]
  apply List.map_congr_left
  intro c _
  simp

/-- C4: the categorizer assigns each file to the first declared category one
of whose keywords is a case-insensitive substring of the file's path
(keywords being lowercase, as every declared keyword list is), falling back
to the catch-all when no category matches; and each bucket of the
categorizer holds exactly the files assigned to its name, in input order. -/
theorem claim4_categorizer_first_match (cats : List Category) (catchAll : String)
    (path : String)
    (hlow : ∀ c ∈ cats, ∀ kw ∈ c.keywords, lowerChars kw = kw.toList)
    (hname : ∀ c ∈ cats, c.name ≠ "") :
    assignPartWith catchAll cats path = assignSpec catchAll cats path ∧
    ∀ files, categorize cats catchAll files =
      cats.map (fun c =>
        (c.name, files.filter (fun g => assignPartWith catchAll cats g.path == c.name))) := by
  constructor
  · unfold assignPartWith assignSpec
    rw [findq_congr _ _ _ (fun c hc => matches_eq_ci c path (hlow c hc))]
    cases hfind : cats.find? (fun c => c.keywords.any (fun kw => ciSubstr kw path)) with
    | none => rfl
    | some c =>
      have hc : c ∈ cats := List.mem_of_find?_eq_some hfind
      dsimp only
      rw [if_neg (hname c hc)]
  · exact categorize_eq_filter cats catchAll

theorem claim4_categorizer_first_match_witness :
    (∀ c ∈ [Category.mk "Styling" [".css"], Category.mk "CoreLogic" ["service"]],
      ∀ kw ∈ c.keywords, lowerChars kw = kw.toList) ∧
    (∀ c ∈ [Category.mk "Styling" [".css"], Category.mk "CoreLogic" ["service"]],
      c.name ≠ "") ∧
    assignPartWith "Misc" [Category.mk "Styling" [".css"], Category.mk "CoreLogic" ["service"]]
      "src/api/service.css" = "Styling" := by
  refine ⟨by decide, by decide, ?_⟩
  have h := claim4_categorizer_first_match
    [Category.mk "Styling" [".css"], Category.mk "CoreLogic" ["service"]]
    "Misc" "src/api/service.css" (by decide) (by decide)
  rw [h.1]
  decide

/-- C8: a category with zero assigned files is skipped entirely by the
runner — it contributes zero batches, zero generation calls, and zero
progress events: deleting it from the part list leaves the whole run
unchanged. -/
theorem claim8_empty_category_skipped (maxChars : Nat) :
    makeBatchesA ([] : List SourceFile) maxChars = [] ∧
    ∀ (client : GenClient) (parts₁ parts₂ : List (String × List SourceFile))
      (name : String) (acc : RunAcc),
      runParts client maxChars (parts₁ ++ (name, ([] : List SourceFile)) :: parts₂) acc =
        runParts client maxChars (parts₁ ++ parts₂) acc := by
  constructor
  · rfl
  · intro client parts₁ parts₂ name
    induction parts₁ with
    | nil =>
      intro acc
      simp [runParts]
    | cons p ps ih =>
      intro acc
      simp only [List.cons_append, runParts]
      by_cases hp : p.2.isEmpty
      · rw [if_pos hp, if_pos hp]
        exact ih acc
      · rw [if_neg hp, if_neg hp]
        cases hr : runPartBatches client p.1 p.2.length
            ((makeBatchesB p.2 maxChars).map Batch.files).length 0
            ((makeBatchesB p.2 maxChars).map Batch.files) acc with
        | ok acc' => exact ih _
        | error e => rfl

theorem tryGenerate_two (client : GenClient) (b : List SourceFile) (c : Nat) :
    tryGenerate client b c maxAttempts =
      match client c b with
      | some m => ⟨some m, c + 1, [.callStart c, .callEnd c]⟩
      | none =>
        match client (c + 1) b with
        | some m => ⟨some m, c + 1 + 1,
            [.callStart c, .callEnd c, .backoff backoffMs,
             .callStart (c + 1), .callEnd (c + 1)]⟩
        | none => ⟨none, c + 1 + 1,
            [.callStart c, .callEnd c, .backoff backoffMs,
             .callStart (c + 1), .callEnd (c + 1)]⟩ := by
  cases h1 : client c b with
  | some m => simp [maxAttempts, tryGenerate, h1]
  | none =>
    cases h2 : client (c + 1) b with
    | some m => simp [maxAttempts, tryGenerate, h1, h2]
    | none => simp [maxAttempts, tryGenerate, h1, h2]

theorem callBlock_zero (c : Nat) : callBlock c 0 = [] := rfl

theorem callBlock_one (c : Nat) : callBlock c 1 = [.callStart c, .callEnd c] := by
  simp [callBlock, List.range_succ]

theorem callBlock_two (c : Nat) :
    callBlock c 2 = [.callStart c, .callEnd c, .callStart (c + 1), .callEnd (c + 1)] := by
  simp [callBlock, List.range_succ]

theorem callBlock_append (c k₁ k₂ : Nat) :
    callBlock c k₁ ++ callBlock (c + k₁) k₂ = callBlock c (k₁ + k₂) := by
  unfold callBlock
  rw [List.range_add, List.map_append, List.flatten_append, List.map_map]
  congr 2
  apply List.map_congr_left
  intro i _
  simp [Function.comp, Nat.add_assoc]

theorem callBlock_succ (c k : Nat) :
    callBlock c (k + 1) = .callStart c :: .callEnd c :: callBlock (c + 1) k := by
  unfold callBlock
  rw [List.range_succ_eq_map, List.map_cons, List.map_map]
  simp only [Nat.add_zero, List.flatten_cons, List.cons_append, List.nil_append]
  congr 2
  apply congrArg List.flatten
  apply List.map_congr_left
  intro i _
  simp only [Function.comp_apply]
  have h : c + (i + 1) = c + 1 + i := by omega
  rw [Nat.add_succ] at h
  rw [show Nat.succ i = i + 1 from rfl]
  rw [show c + (i + 1) = c + 1 + i by omega]

theorem seqFrom_callBlock : ∀ (k c : Nat), seqFrom c (callBlock c k) = true := by
  intro k
  induction k with
  | zero => intro c; rfl
  | succ k ih =>
    intro c
    rw [callBlock_succ]
    simp [seqFrom, ih]

theorem tryGenerate_parts (client : GenClient) (b : List SourceFile) (c : Nat) :
    ∃ k, (k = 1 ∨ k = 2) ∧
      (tryGenerate client b c maxAttempts).nextCall = c + k ∧
      (tryGenerate client b c maxAttempts).trace.filter isCallEv = callBlock c k ∧
      (tryGenerate client b c maxAttempts).trace.filterMap progressOf = [] ∧
      (∀ e ∈ (tryGenerate client b c maxAttempts).trace, benign e = true) := by
  rw [tryGenerate_two]
  cases h1 : client c b with
  | some m =>
    dsimp only
    refine ⟨1, Or.inl rfl, rfl, ?_, rfl, ?_⟩
    · rw [callBlock_one]; rfl
    · intro e he
      fin_cases he <;> rfl
  | none =>
    cases h2 : client (c + 1) b with
    | some m =>
      dsimp only
      refine ⟨2, Or.inr rfl, rfl, ?_, rfl, ?_⟩
      · rw [callBlock_two]; rfl
      · intro e he
        fin_cases he <;> rfl
    | none =>
      dsimp only
      refine ⟨2, Or.inr rfl, rfl, ?_, rfl, ?_⟩
      · rw [callBlock_two]; rfl
      · intro e he
        fin_cases he <;> rfl

theorem runPartBatches_cons (client : GenClient) (name : String) (fc bc i : Nat)
    (b : List SourceFile) (rest : List (List SourceFile)) (acc : RunAcc) :
    runPartBatches client name fc bc i (b :: rest) acc =
      match (tryGenerate client b acc.callNo maxAttempts).result with
      | some m =>
          runPartBatches client name fc bc (i + 1) rest
            ⟨objectAssign acc.generated m,
             (tryGenerate client b acc.callNo maxAttempts).nextCall,
             (acc.events ++ [.progress name (i + 1) bc fc]) ++
               (tryGenerate client b acc.callNo maxAttempts).trace⟩
      | none =>
          .error (⟨acc.generated,
             (tryGenerate client b acc.callNo maxAttempts).nextCall,
             (acc.events ++ [.progress name (i + 1) bc fc]) ++
               (tryGenerate client b acc.callNo maxAttempts).trace⟩,
            "Failed to generate batch for " ++ name ++ ".") := rfl

theorem progress_block_shift (name : String) (bc fc i m : Nat) :
    (name, i + 1, bc, fc) ::
        (List.range m).map (fun j => (name, i + 1 + j + 1, bc, fc)) =
      (List.range (m + 1)).map (fun j => (name, i + j + 1, bc, fc)) := by
  rw [List.range_succ_eq_map, List.map_cons, List.map_map]
  congr 1
  apply List.map_congr_left
  intro j _
  simp only [Function.comp_apply, Nat.succ_eq_add_one]
  rw [show i + (j + 1) + 1 = i + 1 + j + 1 by omega]

theorem runPartBatches_spec (client : GenClient) (name : String) (fc bc : Nat) :
    ∀ (bs : List (List SourceFile)) (i : Nat) (acc : RunAcc),
      ∃ (k : Nat) (added : List Event) (m : Nat),
        (outAcc (runPartBatches client name fc bc i bs acc)).events = acc.events ++ added ∧
        (outAcc (runPartBatches client name fc bc i bs acc)).callNo = acc.callNo + k ∧
        added.filter isCallEv = callBlock acc.callNo k ∧
        added.filterMap progressOf = (List.range m).map (fun j => (name, i + j + 1, bc, fc)) ∧
        m ≤ bs.length ∧
        (∀ e ∈ added, benign e = true) ∧
        ((∃ a, runPartBatches client name fc bc i bs acc = Except.ok a) → m = bs.length) := by
  intro bs
  induction bs with
  | nil =>
    intro i acc
    refine ⟨0, [], 0, by simp [runPartBatches, outAcc], by simp [runPartBatches, outAcc],
      by rw [callBlock_zero]; rfl, rfl, by simp, by simp, fun _ => rfl⟩
  | cons b rest ih =>
    intro i acc
    obtain ⟨k₁, _hk₁, hnext, hfilt₁, hprog₁, hben₁⟩ := tryGenerate_parts client b acc.callNo
    have hpf : isCallEv (Event.progress name (i + 1) bc fc) = false := rfl
    have hpg : progressOf (Event.progress name (i + 1) bc fc) =
        some (name, i + 1, bc, fc) := rfl
    rw [runPartBatches_cons]
    cases hg : (tryGenerate client b acc.callNo maxAttempts).result with
    | some m' =>
      dsimp only
      obtain ⟨k₂, added₂, m₂, hev₂, hcall₂, hfilt₂, hprog₂, hm₂, hben₂, hok₂⟩ :=
        ih (i + 1)
          ⟨objectAssign acc.generated m',
           (tryGenerate client b acc.callNo maxAttempts).nextCall,
           (acc.events ++ [.progress name (i + 1) bc fc]) ++
             (tryGenerate client b acc.callNo maxAttempts).trace⟩
      refine ⟨k₁ + k₂,
        .progress name (i + 1) bc fc ::
          ((tryGenerate client b acc.callNo maxAttempts).trace ++ added₂),
        m₂ + 1, ?_, ?_, ?_, ?_, ?_, ?_, ?_⟩
      · rw [hev₂]
        simp [List.append_assoc]
      · rw [hcall₂]
        dsimp only
        rw [hnext]
        omega
      · rw [List.filter_cons, hpf, if_neg Bool.false_ne_true, List.filter_append, hfilt₁]
        have hf₂ : List.filter isCallEv added₂ = callBlock (acc.callNo + k₁) k₂ := by
          rw [← hnext]
          exact hfilt₂
        rw [hf₂, callBlock_append]
      · rw [List.filterMap_cons_some hpg, List.filterMap_append, hprog₁,
          List.nil_append, hprog₂]
        exact progress_block_shift name bc fc i m₂
      · simpa using Nat.succ_le_succ hm₂
      · intro e he
        rcases List.mem_cons.mp he with rfl | he
        · rfl
        · rcases List.mem_append.mp he with he | he
          · exact hben₁ e he
          · exact hben₂ e he
      · intro hok
        have := hok₂ hok
        simp [this]
    | none =>
      dsimp only
      refine ⟨k₁,
        .progress name (i + 1) bc fc ::
          (tryGenerate client b acc.callNo maxAttempts).trace,
        1, ?_, ?_, ?_, ?_, ?_, ?_, ?_⟩
      · dsimp [outAcc]
        simp [List.append_assoc]
      · dsimp [outAcc]
        exact hnext
      · rw [List.filter_cons, hpf, if_neg Bool.false_ne_true, hfilt₁]
      · rw [List.filterMap_cons_some hpg, hprog₁]
        rfl
      · simp
      · intro e he
        rcases List.mem_cons.mp he with rfl | he
        · rfl
        · exact hben₁ e he
      · rintro ⟨a, ha⟩
        cases ha

theorem runParts_cons (client : GenClient) (mc : Nat) (p : String × List SourceFile)
    (rest : List (String × List SourceFile)) (acc : RunAcc) :
    runParts client mc (p :: rest) acc =
      if p.2.isEmpty then runParts client mc rest acc
      else
        match runPartBatches client p.1 p.2.length
            ((makeBatchesB p.2 mc).map Batch.files).length 0
            ((makeBatchesB p.2 mc).map Batch.files) acc with
        | .ok acc' =>
            runParts client mc rest
              ⟨acc'.generated, acc'.callNo, acc'.events ++ [.partDone p.1 p.2.length]⟩
        | .error e => .error e := rfl

theorem canonicalSchedule_cons (mc : Nat) (p : String × List SourceFile)
    (rest : List (String × List SourceFile)) :
    canonicalSchedule mc (p :: rest) =
      (if p.2.isEmpty then []
       else
         (List.range ((makeBatchesB p.2 mc).map Batch.files).length).map
           (fun j => (p.1, j + 1, ((makeBatchesB p.2 mc).map Batch.files).length, p.2.length))) ++
        canonicalSchedule mc rest := by
  unfold canonicalSchedule
  rw [List.map_cons, List.flatten_cons]

theorem flatten_batchesB (files : List SourceFile) (mc : Nat) :
    ((makeBatchesB files mc).map Batch.files).flatten = files := by
  unfold makeBatchesB
  rw [← foldl_batchStep_eq, finalize_flatten, flatAcc_foldl]
  rfl

theorem map_range_prefix {α : Type} (f : Nat → α) (m L : Nat) (hm : m ≤ L) :
    (List.range m).map f ++ ((List.range L).map f).drop m = (List.range L).map f := by
  rw [show (List.range m).map f = ((List.range L).map f).take m by
    rw [← List.map_take, List.take_range, Nat.min_eq_left hm]]
  exact List.take_append_drop m _

theorem benign_partDone (name : String) (fc : Nat) :
    benign (Event.partDone name fc) = true := rfl

theorem runParts_spec (client : GenClient) (mc : Nat) :
    ∀ (parts : List (String × List SourceFile)) (acc : RunAcc),
      ∃ (k : Nat) (added : List Event),
        (outAcc (runParts client mc parts acc)).events = acc.events ++ added ∧
        (outAcc (runParts client mc parts acc)).callNo = acc.callNo + k ∧
        added.filter isCallEv = callBlock acc.callNo k ∧
        (∃ t, added.filterMap progressOf ++ t = canonicalSchedule mc parts) ∧
        (∀ e ∈ added, benign e = true) := by
  intro parts
  induction parts with
  | nil =>
    intro acc
    exact ⟨0, [], by simp [runParts, outAcc], by simp [runParts, outAcc],
      by rw [callBlock_zero]; rfl, ⟨[], rfl⟩, by simp⟩
  | cons p rest ih =>
    intro acc
    rw [runParts_cons]
    by_cases hp : p.2.isEmpty
    · rw [if_pos hp]
      obtain ⟨k, added, hev, hcall, hfilt, ⟨t, ht⟩, hben⟩ := ih acc
      refine ⟨k, added, hev, hcall, hfilt, ⟨t, ?_⟩, hben⟩
      rw [canonicalSchedule_cons, if_pos hp, List.nil_append, ht]
    · rw [if_neg hp]
      obtain ⟨k₁, added₁, m, hev₁, hcall₁, hfilt₁, hprog₁, hm₁, hben₁, hok₁⟩ :=
        runPartBatches_spec client p.1 p.2.length
          ((makeBatchesB p.2 mc).map Batch.files).length
          ((makeBatchesB p.2 mc).map Batch.files) 0 acc
      cases hr : runPartBatches client p.1 p.2.length
          ((makeBatchesB p.2 mc).map Batch.files).length 0
          ((makeBatchesB p.2 mc).map Batch.files) acc with
      | error e =>
        dsimp only
        rw [hr] at hev₁ hcall₁
        dsimp [outAcc] at hev₁ hcall₁ ⊢
        have hzero : (fun j => (p.1, 0 + j + 1, ((makeBatchesB p.2 mc).map Batch.files).length,
            p.2.length)) = (fun j => (p.1, j + 1,
            ((makeBatchesB p.2 mc).map Batch.files).length, p.2.length)) := by
          funext j
          rw [show 0 + j + 1 = j + 1 by omega]
        refine ⟨k₁, added₁, hev₁, hcall₁, hfilt₁,
          ⟨(((List.range ((makeBatchesB p.2 mc).map Batch.files).length).map
              (fun j => (p.1, j + 1, ((makeBatchesB p.2 mc).map Batch.files).length,
                p.2.length))).drop m) ++ canonicalSchedule mc rest, ?_⟩, hben₁⟩
        rw [canonicalSchedule_cons, if_neg hp, hprog₁, hzero, ← List.append_assoc,
          map_range_prefix _ m _ hm₁]
      | ok acc' =>
        dsimp only
        rw [hr] at hev₁ hcall₁
        dsimp [outAcc] at hev₁ hcall₁
        obtain ⟨k₂, added₂, hev₂, hcall₂, hfilt₂, ⟨t₂, ht₂⟩, hben₂⟩ :=
          ih ⟨acc'.generated, acc'.callNo, acc'.events ++ [.partDone p.1 p.2.length]⟩
        refine ⟨k₁ + k₂, (added₁ ++ [.partDone p.1 p.2.length]) ++ added₂, ?_, ?_, ?_, ?_, ?_⟩
        · rw [hev₂]
          dsimp only
          rw [hev₁]
          simp [List.append_assoc]
        · rw [hcall₂]
          dsimp only
          rw [hcall₁]
          omega
        · rw [List.filter_append, List.filter_append, hfilt₁]
          have hf₂ : List.filter isCallEv added₂ = callBlock (acc.callNo + k₁) k₂ := by
            rw [← hcall₁]
            exact hfilt₂
          rw [hf₂]
          rw [show List.filter isCallEv [Event.partDone p.1 p.2.length] = [] from rfl]
          rw [List.append_nil, callBlock_append]
        · refine ⟨t₂, ?_⟩
          rw [List.filterMap_append, List.filterMap_append, hprog₁]
          rw [show List.filterMap progressOf [Event.partDone p.1 p.2.length] = [] from rfl]
          rw [List.append_nil]
          have hmfull : m = ((makeBatchesB p.2 mc).map Batch.files).length := hok₁ ⟨acc', hr⟩
          rw [canonicalSchedule_cons, if_neg hp]
          rw [List.append_assoc, ht₂, hmfull]
          congr 1
          apply List.map_congr_left
          intro j _
          rw [show 0 + j + 1 = j + 1 by omega]
        · intro e he
          rcases List.mem_append.mp he with he | he
          · rcases List.mem_append.mp he with he | he
            · exact hben₁ e he
            · rcases List.mem_singleton.mp he with rfl
              rfl
          · exact hben₂ e he

/-- C6: during one run generation calls are strictly sequential — the call
trace consists of call 0 started and completed, then call 1 started and
completed, and so on, so no two calls are ever in flight together — and the
progress events form a prefix of the canonical schedule: categories in
declaration order, batches in order within each category. -/
theorem claim6_sequential_calls (client : GenClient) (cats : List Category)
    (catchAll : String) (mc : Nat) (files : List SourceFile) :
    seqFrom 0 (((runPipeline client cats catchAll mc files).events).filter isCallEv) = true ∧
    ∃ t, ((runPipeline client cats catchAll mc files).events).filterMap progressOf ++ t =
      canonicalSchedule mc (categorize cats catchAll files) := by
  obtain ⟨k, added, hev, _hcall, hfilt, ⟨t, ht⟩, _hben⟩ :=
    runParts_spec client mc (categorize cats catchAll files) ⟨[], 0, []⟩
  unfold runPipeline
  cases hr : runParts client mc (categorize cats catchAll files) ⟨[], 0, []⟩ with
  | ok acc =>
    rw [hr] at hev
    dsimp [outAcc] at hev
    dsimp only
    constructor
    · rw [List.filter_append, hev, hfilt]
      rw [show List.filter isCallEv [Event.complete (buildArchive acc.generated)] = []
        from rfl]
      rw [List.append_nil]
      exact seqFrom_callBlock k 0
    · refine ⟨t, ?_⟩
      rw [List.filterMap_append, hev]
      rw [show List.filterMap progressOf [Event.complete (buildArchive acc.generated)] = []
        from rfl]
      rw [List.append_nil, ht]
  | error e =>
    rw [hr] at hev
    dsimp [outAcc] at hev
    dsimp only
    constructor
    · rw [List.filter_append, hev, hfilt]
      rw [show List.filter isCallEv [Event.error e.2] = [] from rfl]
      rw [List.append_nil]
      exact seqFrom_callBlock k 0
    · refine ⟨t, ?_⟩
      rw [List.filterMap_append, hev]
      rw [show List.filterMap progressOf [Event.error e.2] = [] from rfl]
      rw [List.append_nil, ht]

/-- C2: when some batch still fails after its attempts are exhausted, the
whole run terminates: the result carries no archive (the accumulated file
set is discarded), exactly one error event is emitted, no completion event
is ever emitted, and the error event is the final event of the run. -/
theorem claim2_fatal_abort (client : GenClient) (cats : List Category)
    (catchAll : String) (mc : Nat) (files : List SourceFile)
    (hfail : ∃ e, runParts client mc (categorize cats catchAll files) ⟨[], 0, []⟩ =
      Except.error e) :
    (runPipeline client cats catchAll mc files).archive = none ∧
    ((runPipeline client cats catchAll mc files).events).countP (fun e => isErrorEv e) = 1 ∧
    ((runPipeline client cats catchAll mc files).events).countP (fun e => isCompleteEv e) = 0 ∧
    ∃ pre msg, (runPipeline client cats catchAll mc files).events = pre ++ [Event.error msg] := by
  obtain ⟨e, he⟩ := hfail
  obtain ⟨k, added, hev, _hcall, _hfilt, _hprog, hben⟩ :=
    runParts_spec client mc (categorize cats catchAll files) ⟨[], 0, []⟩
  rw [he] at hev
  dsimp [outAcc] at hev
  unfold runPipeline
  rw [he]
  dsimp only
  have herr : ∀ a ∈ added, (fun e => isErrorEv e) a = false := by
    intro a ha
    have hb := hben a ha
    unfold benign at hb
    rcases hor : isErrorEv a with _ | _
    · exact hor
    · rw [hor] at hb
      simp at hb
  have hcomp : ∀ a ∈ added, (fun e => isCompleteEv e) a = false := by
    intro a ha
    have hb := hben a ha
    unfold benign at hb
    rcases hor : isCompleteEv a with _ | _
    · exact hor
    · rw [hor] at hb
      simp at hb
  refine ⟨rfl, ?_, ?_, ⟨e.1.events, e.2, rfl⟩⟩
  · rw [List.countP_append, hev]
    rw [List.countP_eq_zero.mpr ?_]
    · rw [show List.countP (fun e => isErrorEv e) [Event.error e.2] = 1 from rfl]
    · intro a ha
      rw [show isErrorEv a = false from herr a ha]
      exact Bool.false_ne_true
  · rw [List.countP_append, hev]
    rw [List.countP_eq_zero.mpr ?_]
    · rw [show List.countP (fun e => isCompleteEv e) [Event.error e.2] = 0 from rfl]
    · intro a ha
      rw [show isCompleteEv a = false from hcomp a ha]
      exact Bool.false_ne_true

theorem claim2_fatal_abort_witness :
    (∃ e, runParts alwaysFail 100
        (categorize [⟨"CoreLogic", [".ts"]⟩, ⟨"Miscellaneous", []⟩] "Miscellaneous"
          [⟨"a.ts", "x"⟩]) ⟨[], 0, []⟩ = Except.error e) ∧
    (runPipeline alwaysFail [⟨"CoreLogic", [".ts"]⟩, ⟨"Miscellaneous", []⟩] "Miscellaneous"
      100 [⟨"a.ts", "x"⟩]).archive = none ∧
    ((runPipeline alwaysFail [⟨"CoreLogic", [".ts"]⟩, ⟨"Miscellaneous", []⟩] "Miscellaneous"
      100 [⟨"a.ts", "x"⟩]).events).countP (fun e => isErrorEv e) = 1 := by
  have hfail : ∃ e, runParts alwaysFail 100
      (categorize [⟨"CoreLogic", [".ts"]⟩, ⟨"Miscellaneous", []⟩] "Miscellaneous"
        [⟨"a.ts", "x"⟩]) ⟨[], 0, []⟩ = Except.error e := ⟨_, rfl⟩
  have h := claim2_fatal_abort alwaysFail [⟨"CoreLogic", [".ts"]⟩, ⟨"Miscellaneous", []⟩]
    "Miscellaneous" 100 [⟨"a.ts", "x"⟩] hfail
  exact ⟨hfail, h.1, h.2.1⟩

theorem batchesB_ne_nil (files : List SourceFile) (mc : Nat) (h : files ≠ []) :
    (makeBatchesB files mc).map Batch.files ≠ [] := by
  intro hnil
  have hflat := flatten_batchesB files mc
  rw [hnil] at hflat
  exact h hflat.symm

theorem tryGen_alwaysFail (b : List SourceFile) (c : Nat) :
    tryGenerate alwaysFail b c maxAttempts =
      ⟨none, c + 1 + 1, [.callStart c, .callEnd c, .backoff backoffMs,
        .callStart (c + 1), .callEnd (c + 1)]⟩ := rfl

theorem runParts_alwaysFail (mc : Nat) :
    ∀ (parts : List (String × List SourceFile)) (acc : RunAcc),
      (∃ b ∈ parts, b.2 ≠ []) →
      ∃ (name : String) (bc fc : Nat),
        runParts alwaysFail mc parts acc =
          Except.error (⟨acc.generated, acc.callNo + 1 + 1,
            acc.events ++ [.progress name 1 bc fc,
              .callStart acc.callNo, .callEnd acc.callNo, .backoff backoffMs,
              .callStart (acc.callNo + 1), .callEnd (acc.callNo + 1)]⟩,
            "Failed to generate batch for " ++ name ++ ".") := by
  intro parts
  induction parts with
  | nil =>
    intro acc hne
    rcases hne with ⟨b, hb, _⟩
    cases hb
  | cons p rest ih =>
    intro acc hne
    rw [runParts_cons]
    by_cases hp : p.2.isEmpty
    · rw [if_pos hp]
      apply ih
      rcases hne with ⟨b, hb, hbne⟩
      rcases List.mem_cons.mp hb with rfl | hb
      · exact absurd (List.isEmpty_iff.mp hp) hbne
      · exact ⟨b, hb, hbne⟩
    · rw [if_neg hp]
      have hpne : p.2 ≠ [] := fun hc => hp (by rw [hc]; rfl)
      cases hbs : (makeBatchesB p.2 mc).map Batch.files with
      | nil => exact absurd hbs (batchesB_ne_nil p.2 mc hpne)
      | cons b₀ bs' =>
        rw [runPartBatches_cons]
        rw [show (tryGenerate alwaysFail b₀ acc.callNo maxAttempts).result = none from rfl]
        dsimp only
        refine ⟨p.1, (b₀ :: bs').length, p.2.length, ?_⟩
        rw [show (tryGenerate alwaysFail b₀ acc.callNo maxAttempts).nextCall =
          acc.callNo + 1 + 1 from rfl]
        rw [show (tryGenerate alwaysFail b₀ acc.callNo maxAttempts).trace =
          [.callStart acc.callNo, .callEnd acc.callNo, .backoff backoffMs,
           .callStart (acc.callNo + 1), .callEnd (acc.callNo + 1)] from rfl]
        rw [List.append_assoc]
        rfl

/-- C1: with a client that always fails, the runner makes exactly 2 calls —
one batch, two attempts with the fixed backoff between them — then aborts
fatally with a single error event and no archive; the per-batch attempt
loop with a client that fails once then succeeds returns the successful
result after exactly 2 calls. -/
theorem claim1_retry_two_attempts (cats : List Category) (catchAll : String)
    (mc : Nat) (files : List SourceFile) (m : FileMap) (b : List SourceFile)
    (hne : ∃ bucket ∈ categorize cats catchAll files, bucket.2 ≠ []) :
    ((runPipeline alwaysFail cats catchAll mc files).events).countP
      (fun e => isCallStartEv e) = 2 ∧
    (runPipeline alwaysFail cats catchAll mc files).archive = none ∧
    ((runPipeline alwaysFail cats catchAll mc files).events).countP
      (fun e => isErrorEv e) = 1 ∧
    (tryGenerate alwaysFail b 0 maxAttempts).trace =
      [.callStart 0, .callEnd 0, .backoff backoffMs, .callStart 1, .callEnd 1] ∧
    (tryGenerate (failThenSucceed m) b 0 maxAttempts).result = some m ∧
    (tryGenerate (failThenSucceed m) b 0 maxAttempts).nextCall = 2 := by
  obtain ⟨name, bc, fc, hrun⟩ :=
    runParts_alwaysFail mc (categorize cats catchAll files) ⟨[], 0, []⟩ hne
  unfold runPipeline
  rw [hrun]
  dsimp only
  refine ⟨?_, rfl, ?_, rfl, rfl, rfl⟩
  · simp [List.countP_cons, isCallStartEv]
  · simp [List.countP_cons, isErrorEv]

theorem claim1_retry_two_attempts_witness :
    (∃ bucket ∈ categorize [⟨"CoreLogic", [".ts"]⟩, ⟨"Miscellaneous", []⟩] "Miscellaneous"
      [⟨"a.ts", "x"⟩], bucket.2 ≠ []) ∧
    (runPipeline alwaysFail [⟨"CoreLogic", [".ts"]⟩, ⟨"Miscellaneous", []⟩] "Miscellaneous"
      100 [⟨"a.ts", "x"⟩]).archive = none ∧
    (tryGenerate (failThenSucceed [("p", "c")]) [] 0 maxAttempts).result =
      some [("p", "c")] := by
  refine ⟨by decide, ?_, ?_⟩
  · exact (claim1_retry_two_attempts [⟨"CoreLogic", [".ts"]⟩, ⟨"Miscellaneous", []⟩]
      "Miscellaneous" 100 [⟨"a.ts", "x"⟩] [("p", "c")] [] (by decide)).2.1
  · rfl

end RepRip
